import Mathlib

/-
Verification development for the GO enrichment-testing engine
(src/go-tools/enrichment_stats.py).

The Python module is shallowly embedded as follows:
* Python dicts become association lists (`List (String × _)`), preserving
  insertion order, since dict iteration order is insertion order.
* The GO dictionary becomes a total function `String → GOobj` (every lookup
  in the source is assumed to succeed; looking up an unknown term is fatal
  in the source as well).
* The recursion of `recursiveTester` is made total with an explicit fuel
  parameter; `none` means the recursion bound was exhausted.  Everything
  else in the body follows the source line by line.
* p-values are rationals; the external `scipy.stats.hypergeom.sf`
  collaborator is modelled by its mathematical definition (survival
  function of the hypergeometric distribution).
-/

set_option maxRecDepth 100000

/-- A GO term record as produced by the external OBO importer (the
hierarchy provider): direct parents, direct children and the precomputed
transitive closures. -/
structure GOobj where
  parents : List String
  children : List String
  recursive_parents : List String
  recursive_children : List String
deriving DecidableEq

/-- Embeds `countGOassociations`: counts the genes of the gaf dictionary
whose GO id set shares a member with the valid-terms set. -/
def countGOassociations (validTerms : List String) (gafDict : List (String × List String)) : Nat :=
  gafDict.foldl
    (fun GOcounter assoc => if assoc.2.any (fun g => validTerms.contains g) then GOcounter + 1 else GOcounter)
    0

/-- Modelled from the spec: probability mass function of the hypergeometric
distribution with population `M`, `n` successes and `N` draws (the
`scipy.stats.hypergeom` collaborator is external to the repository). -/
def hypergeomPMF (M n N j : Nat) : ℚ :=
  if N < j then 0 else (Nat.choose n j * Nat.choose (M - n) (N - j) : ℚ) / (Nat.choose M N : ℚ)

/-- Modelled from the spec: cumulative distribution function at an integer
point `k`; it is `0` below the support, in particular at `k = -1`. -/
def hypergeomCDF (k : Int) (M n N : Nat) : ℚ :=
  if k < 0 then 0 else ((List.range (k.toNat + 1)).map (hypergeomPMF M n N)).sum

/-- Modelled from the spec: survival function `1 - CDF(k)`. -/
def hypergeomSF (k : Int) (M n N : Nat) : ℚ :=
  1 - hypergeomCDF k M n N

/-- Embeds `enrichmentOneSided`: the one-sided hypergeometric p-value,
the survival function evaluated at `subsetGO - 1`. -/
def enrichmentOneSided (subsetGO backgroundTotal backgroundGO subsetTotal : Nat) : ℚ :=
  hypergeomSF ((subsetGO : Int) - 1) backgroundTotal backgroundGO subsetTotal

/-- The enrichment result table (`enrichmentTestResults` in the source):
the three sub-dictionaries created by `enrichmentAnalysis` plus the `corr`
sub-dictionary appended by `multipleTestingCorrection` (empty until then). -/
structure Results where
  pValues : List (String × ℚ)
  interestCount : List (String × Nat)
  backgroundCount : List (String × Nat)
  corr : List (String × ℚ)
deriving DecidableEq

/-- The table `{'pValues': {}, 'interestCount': {}, 'backgroundCount': {}}`. -/
def emptyResults : Results :=
  ⟨[], [], [], []⟩

/-- The read-only data threaded through the recursion of `recursiveTester`:
its parameters other than the current term and the mutable table. -/
structure Ctx where
  GOdict : String → GOobj
  gafDict : List (String × List String)
  gafSubset : List (String × List String)
  backgroundTotal : Nat
  subsetTotal : Nat
  minGenes : Int
  threshold : ℚ

/-- Key list of the `pValues` sub-dictionary. -/
def pKeys (t : Results) : List String :=
  t.pValues.map Prod.fst

/-- Key list of the `interestCount` sub-dictionary. -/
def iKeys (t : Results) : List String :=
  t.interestCount.map Prod.fst

/-- Key list of the `backgroundCount` sub-dictionary. -/
def bKeys (t : Results) : List String :=
  t.backgroundCount.map Prod.fst

/-- `validTerms = {GOid} ∪ recursive_children(GOid)` of `recursiveTester`. -/
def validTermsOf (GOdict : String → GOobj) (GOid : String) : List String :=
  GOid :: (GOdict GOid).recursive_children

/-- `backgroundGO` of `recursiveTester`: background genes associated with
the term or a recursive child. -/
def bgCount (ctx : Ctx) (GOid : String) : Nat :=
  countGOassociations (validTermsOf ctx.GOdict GOid) ctx.gafDict

/-- `subsetGO` of `recursiveTester`: subset genes associated with the term
or a recursive child. -/
def subCount (ctx : Ctx) (GOid : String) : Nat :=
  countGOassociations (validTermsOf ctx.GOdict GOid) ctx.gafSubset

/-- `pVal` of `recursiveTester` for a given term. -/
def pValOf (ctx : Ctx) (GOid : String) : ℚ :=
  enrichmentOneSided (subCount ctx GOid) ctx.backgroundTotal (bgCount ctx GOid) ctx.subsetTotal

/-- The three assignments of `recursiveTester` that store the p-value and
both frequency counts for a term. -/
def recordResult (ctx : Ctx) (GOid : String) (acc : Results) : Results :=
  { acc with
    pValues := acc.pValues ++ [(GOid, pValOf ctx GOid)]
    interestCount := acc.interestCount ++ [(GOid, subCount ctx GOid)]
    backgroundCount := acc.backgroundCount ++ [(GOid, bgCount ctx GOid)] }

/-- Embeds `recursiveTester`.  The body follows the source: skip if the
term already has a stored p-value; if `backgroundGO < minGenes` recurse
into every direct parent without recording; otherwise record the result
and recurse into every direct parent exactly when `pVal > threshold`.
The fuel argument bounds the recursion depth (the source recursion has no
such bound); `none` reports that the bound was exhausted. -/
def recursiveTester (ctx : Ctx) : Nat → String → Results → Option Results
  | 0, GOid, acc => if GOid ∈ pKeys acc then some acc else none
  | fuel + 1, GOid, acc =>
    if GOid ∈ pKeys acc then
      some acc
    else if (bgCount ctx GOid : Int) < ctx.minGenes then
      (ctx.GOdict GOid).parents.foldl
        (fun oacc parent => oacc.bind (fun a => recursiveTester ctx fuel parent a)) (some acc)
    else if ctx.threshold < pValOf ctx GOid then
      (ctx.GOdict GOid).parents.foldl
        (fun oacc parent => oacc.bind (fun a => recursiveTester ctx fuel parent a))
        (some (recordResult ctx GOid acc))
    else
      some (recordResult ctx GOid acc)

/-- Sequencing of `recursiveTester` calls over a list of term ids against
one shared table: the loop shape used over the direct parents and, in
`enrichmentAnalysis`, over the base terms. -/
def testGOids (ctx : Ctx) (fuel : Nat) (ids : List String) (acc : Results) : Option Results :=
  ids.foldl (fun oacc GOid => oacc.bind (fun a => recursiveTester ctx fuel GOid a)) (some acc)

/-- Embeds the base-term selection of `enrichmentAnalysis`: the terms
directly associated with a subset gene that are not a recursive parent of
any such term. -/
def baseGOids (GOdict : String → GOobj) (gafSubset : List (String × List String)) : List String :=
  let subsetGOids := ((gafSubset.map Prod.snd).flatten).dedup
  let subsetGOidsParents := (subsetGOids.map (fun GOid => (GOdict GOid).recursive_parents)).flatten
  subsetGOids.filter (fun GOid => decide (GOid ∉ subsetGOidsParents))

/-- Embeds `enrichmentAnalysis`: build the context (totals are the gaf
lengths), select the base terms and run `recursiveTester` on each of them
against one shared table. -/
def enrichmentAnalysis (GOdict : String → GOobj) (gafDict gafSubset : List (String × List String))
    (minGenes : Int) (threshold : ℚ) (fuel : Nat) : Option Results :=
  let ctx : Ctx :=
    { GOdict := GOdict, gafDict := gafDict, gafSubset := gafSubset,
      backgroundTotal := gafDict.length, subsetTotal := gafSubset.length,
      minGenes := minGenes, threshold := threshold }
  testGOids ctx fuel (baseGOids GOdict gafSubset) emptyResults

/-- Modelled from the spec: Bonferroni correction of a p-value sequence
(the statsmodels `multipletests` collaborator is external to the
repository); each value is multiplied by the number of tests and clipped
at one, in place. -/
def bonferroniCorrect (ps : List ℚ) : List ℚ :=
  ps.map (fun p => min 1 (p * (ps.length : ℚ)))

/-- Insertion step of the by-value sort used by the FDR correction. -/
def insertPairSorted (x : ℚ × Nat) : List (ℚ × Nat) → List (ℚ × Nat)
  | [] => [x]
  | y :: ys => if x.1 ≤ y.1 then x :: y :: ys else y :: insertPairSorted x ys

/-- Sorts value-index pairs by ascending value. -/
def sortPairsByVal : List (ℚ × Nat) → List (ℚ × Nat)
  | [] => []
  | x :: xs => insertPairSorted x (sortPairsByVal xs)

/-- Suffix minima of a sequence: position `i` holds the minimum of the
values from `i` to the end (the reversed running minimum of the step-up
adjustment). -/
def suffixMins : List ℚ → List ℚ
  | [] => []
  | x :: xs =>
    match suffixMins xs with
    | [] => [x]
    | y :: ys => min x y :: y :: ys

/-- Modelled from the spec: Benjamini-Hochberg step-up FDR correction of a
p-value sequence, returned in the original order (sort ascending, scale
the value of rank `k` by `n/k`, take suffix minima, clip at one, unsort). -/
def fdrBHCorrect (ps : List ℚ) : List ℚ :=
  let n := ps.length
  let sorted := sortPairsByVal (ps.zip (List.range n))
  let rawCorrected := sorted.enum.map (fun ke => ke.2.1 * (n : ℚ) / ((ke.1 : ℚ) + 1))
  let adjusted := (suffixMins rawCorrected).map (fun q => min 1 q)
  let indexed := (sorted.map Prod.snd).zip adjusted
  (List.range n).map (fun i => (indexed.lookup i).getD 0)

/-- The correction dispatch of `multipleTestingCorrection`: the source
tests `testType == 'bonferroni'` and otherwise falls into the FDR branch,
whatever the method string is. -/
def correctedPValues (testType : String) (ps : List ℚ) : List ℚ :=
  if testType = "bonferroni" then bonferroniCorrect ps else fdrBHCorrect ps

/-- Embeds `multipleTestingCorrection`: read the keys and values of the
`pValues` sub-dictionary, correct the values, and append the zip of keys
and corrected values as the `corr` sub-dictionary.  The threshold is only
used by the source for the printed significance counts. -/
def multipleTestingCorrection (tbl : Results) (testType : String) (threshold : ℚ) : Results :=
  let pValues := tbl.pValues.map Prod.snd
  let terms := tbl.pValues.map Prod.fst
  let corr := correctedPValues testType pValues
  { tbl with corr := terms.zip corr }

/-- A failed call short-circuits the whole loop over a term list. -/
theorem foldl_bind_none (f : String → Results → Option Results) (ids : List String) :
    ids.foldl (fun oacc g => oacc.bind (fun a => f g a)) none = none := by
  induction ids with
  | nil => rfl
  | cons g ids ih => simpa using ih

/-- Any reflexive-transitive relation preserved by each call of the loop
body is preserved by the whole loop over a term list. -/
theorem foldl_bind_pres (f : String → Results → Option Results) (P : Results → Results → Prop)
    (hrefl : ∀ a, P a a) (htrans : ∀ a b c, P a b → P b c → P a c)
    (hstep : ∀ g a b, f g a = some b → P a b) :
    ∀ (ids : List String) (a b : Results),
      ids.foldl (fun oacc g => oacc.bind (fun x => f g x)) (some a) = some b → P a b := by
  intro ids
  induction ids with
  | nil =>
    intro a b h
    simp only [List.foldl_nil, Option.some.injEq] at h
    exact h ▸ hrefl a
  | cons g ids ih =>
    intro a b h
    rw [List.foldl_cons] at h
    have h' : ids.foldl (fun oacc g => oacc.bind (fun x => f g x)) (f g a) = some b := h
    cases hfa : f g a with
    | none =>
      rw [hfa] at h'
      rw [foldl_bind_none] at h'
      exact absurd h' (by simp)
    | some c =>
      rw [hfa] at h'
      exact htrans a c b (hstep g a c hfa) (ih c b h')

/-- Growth invariant of one `recursiveTester` call: the three
sub-dictionaries can only grow at the tail (dictionary insertion order; in
particular nothing is removed or overwritten), every appended entry
belongs to a term whose background count passed the `minGenes` check, its
stored values are the recomputed p-value and counts of that term, and the
`corr` sub-dictionary is untouched. -/
def tableExtends (ctx : Ctx) (a b : Results) : Prop :=
  (∃ r, b.pValues = a.pValues ++ r ∧
      ∀ e ∈ r, ctx.minGenes ≤ (bgCount ctx e.1 : Int) ∧ e.2 = pValOf ctx e.1) ∧
  (∃ r, b.interestCount = a.interestCount ++ r ∧
      ∀ e ∈ r, ctx.minGenes ≤ (bgCount ctx e.1 : Int) ∧ e.2 = subCount ctx e.1) ∧
  (∃ r, b.backgroundCount = a.backgroundCount ++ r ∧
      ∀ e ∈ r, ctx.minGenes ≤ (bgCount ctx e.1 : Int) ∧ e.2 = bgCount ctx e.1) ∧
  b.corr = a.corr

theorem tableExtends_refl (ctx : Ctx) (a : Results) : tableExtends ctx a a :=
  ⟨⟨[], by simp⟩, ⟨[], by simp⟩, ⟨[], by simp⟩, rfl⟩

theorem tableExtends_trans (ctx : Ctx) (a b c : Results)
    (h1 : tableExtends ctx a b) (h2 : tableExtends ctx b c) : tableExtends ctx a c := by
  obtain ⟨⟨r1, hr1, hp1⟩, ⟨s1, hs1, hq1⟩, ⟨t1, ht1, hb1⟩, hc1⟩ := h1
  obtain ⟨⟨r2, hr2, hp2⟩, ⟨s2, hs2, hq2⟩, ⟨t2, ht2, hb2⟩, hc2⟩ := h2
  refine ⟨⟨r1 ++ r2, ?_, ?_⟩, ⟨s1 ++ s2, ?_, ?_⟩, ⟨t1 ++ t2, ?_, ?_⟩, hc2.trans hc1⟩
  · rw [hr2, hr1, List.append_assoc]
  · intro e he
    rcases List.mem_append.1 he with h | h
    · exact hp1 e h
    · exact hp2 e h
  · rw [hs2, hs1, List.append_assoc]
  · intro e he
    rcases List.mem_append.1 he with h | h
    · exact hq1 e h
    · exact hq2 e h
  · rw [ht2, ht1, List.append_assoc]
  · intro e he
    rcases List.mem_append.1 he with h | h
    · exact hb1 e h
    · exact hb2 e h

theorem tableExtends_record (ctx : Ctx) (GOid : String) (acc : Results)
    (hbg : ctx.minGenes ≤ (bgCount ctx GOid : Int)) :
    tableExtends ctx acc (recordResult ctx GOid acc) := by
  refine ⟨⟨[(GOid, pValOf ctx GOid)], rfl, ?_⟩, ⟨[(GOid, subCount ctx GOid)], rfl, ?_⟩,
    ⟨[(GOid, bgCount ctx GOid)], rfl, ?_⟩, rfl⟩ <;>
    · intro e he
      simp only [List.mem_singleton] at he
      subst he
      exact ⟨hbg, rfl⟩

/-- Every successful `recursiveTester` call only extends the table. -/
theorem rt_extends (ctx : Ctx) :
    ∀ (fuel : Nat) (GOid : String) (acc acc' : Results),
      recursiveTester ctx fuel GOid acc = some acc' → tableExtends ctx acc acc' := by
  intro fuel
  induction fuel with
  | zero =>
    intro GOid acc acc' h
    by_cases hm : GOid ∈ pKeys acc
    · simp only [recursiveTester, if_pos hm, Option.some.injEq] at h
      exact h ▸ tableExtends_refl ctx acc
    · simp only [recursiveTester, if_neg hm] at h
      exact absurd h (by simp)
  | succ fuel ih =>
    intro GOid acc acc' h
    simp only [recursiveTester] at h
    by_cases hm : GOid ∈ pKeys acc
    · rw [if_pos hm] at h
      injection h with h
      exact h ▸ tableExtends_refl ctx acc
    · rw [if_neg hm] at h
      by_cases hlow : (bgCount ctx GOid : Int) < ctx.minGenes
      · rw [if_pos hlow] at h
        exact foldl_bind_pres _ _ (tableExtends_refl ctx) (tableExtends_trans ctx)
          (fun g a b hab => ih g a b hab) _ _ _ h
      · rw [if_neg hlow] at h
        have hbg : ctx.minGenes ≤ (bgCount ctx GOid : Int) := not_lt.mp hlow
        by_cases hsig : ctx.threshold < pValOf ctx GOid
        · rw [if_pos hsig] at h
          exact tableExtends_trans ctx _ _ _ (tableExtends_record ctx GOid acc hbg)
            (foldl_bind_pres _ _ (tableExtends_refl ctx) (tableExtends_trans ctx)
              (fun g a b hab => ih g a b hab) _ _ _ h)
        · rw [if_neg hsig] at h
          injection h with h
          exact h ▸ tableExtends_record ctx GOid acc hbg

/-- The stored p-values list of the table only grows at the tail. -/
theorem rt_tail_growth (ctx : Ctx) (fuel : Nat) (GOid : String) (acc acc' : Results)
    (h : recursiveTester ctx fuel GOid acc = some acc') :
    ∃ r, acc'.pValues = acc.pValues ++ r := by
  obtain ⟨⟨r, hr, _⟩, _, _, _⟩ := rt_extends ctx fuel GOid acc acc' h
  exact ⟨r, hr⟩

/-- Tail growth keeps every existing key. -/
theorem pKeys_mono {a b : Results} (h : ∃ r, b.pValues = a.pValues ++ r) {k : String}
    (hk : k ∈ pKeys a) : k ∈ pKeys b := by
  obtain ⟨r, hr⟩ := h
  simp only [pKeys, hr, List.map_append, List.mem_append]
  exact Or.inl hk

/-- The whole loop over a term list only extends the table. -/
theorem testGOids_extends (ctx : Ctx) (fuel : Nat) (ids : List String) (acc acc' : Results)
    (h : testGOids ctx fuel ids acc = some acc') : tableExtends ctx acc acc' := by
  simp only [testGOids] at h
  exact foldl_bind_pres _ _ (tableExtends_refl ctx) (tableExtends_trans ctx)
    (fun g a b hab => rt_extends ctx fuel g a b hab) _ _ _ h

/-- The key list of `recordResult`. -/
theorem pKeys_record (ctx : Ctx) (GOid : String) (acc : Results) :
    pKeys (recordResult ctx GOid acc) = pKeys acc ++ [GOid] := by
  simp [pKeys, recordResult]

/-- A successful call leaves a term recorded whenever its background count
passes the `minGenes` check. -/
theorem rt_visits (ctx : Ctx) (fuel : Nat) (GOid : String) (acc acc' : Results)
    (h : recursiveTester ctx fuel GOid acc = some acc')
    (hbg : ctx.minGenes ≤ (bgCount ctx GOid : Int)) : GOid ∈ pKeys acc' := by
  cases fuel with
  | zero =>
    by_cases hm : GOid ∈ pKeys acc
    · simp only [recursiveTester, if_pos hm, Option.some.injEq] at h
      exact h ▸ hm
    · simp only [recursiveTester, if_neg hm] at h
      exact absurd h (by simp)
  | succ fuel =>
    simp only [recursiveTester] at h
    by_cases hm : GOid ∈ pKeys acc
    · rw [if_pos hm] at h
      injection h with h
      exact h ▸ hm
    · rw [if_neg hm] at h
      have hlow : ¬((bgCount ctx GOid : Int) < ctx.minGenes) := not_lt.mpr hbg
      rw [if_neg hlow] at h
      by_cases hsig : ctx.threshold < pValOf ctx GOid
      · rw [if_pos hsig] at h
        have hpre : ∃ r, acc'.pValues = (recordResult ctx GOid acc).pValues ++ r := by
          have := foldl_bind_pres (fun g a => recursiveTester ctx fuel g a)
            (fun a b => ∃ r, b.pValues = a.pValues ++ r)
            (fun a => ⟨[], by simp⟩)
            (by
              rintro a b c ⟨r1, h1⟩ ⟨r2, h2⟩
              exact ⟨r1 ++ r2, by rw [h2, h1, List.append_assoc]⟩)
            (fun g a b hab => rt_tail_growth ctx fuel g a b hab) _ _ _ h
          exact this
        refine pKeys_mono hpre ?_
        rw [pKeys_record]
        simp
      · rw [if_neg hsig] at h
        injection h with h
        rw [← h, pKeys_record]
        simp

/-- The loop over a term list leaves every listed term recorded whenever
its background count passes the `minGenes` check. -/
theorem testGOids_visits (ctx : Ctx) (fuel : Nat) :
    ∀ (ids : List String) (acc acc' : Results),
      testGOids ctx fuel ids acc = some acc' →
      ∀ p ∈ ids, ctx.minGenes ≤ (bgCount ctx p : Int) → p ∈ pKeys acc' := by
  intro ids
  induction ids with
  | nil =>
    intro acc acc' h p hp
    exact absurd hp (List.not_mem_nil p)
  | cons g ids ih =>
    intro acc acc' h p hp hbg
    simp only [testGOids, List.foldl_cons] at h
    have h' : ids.foldl (fun oacc GOid => oacc.bind (fun a => recursiveTester ctx fuel GOid a))
        (recursiveTester ctx fuel g acc) = some acc' := h
    cases hfa : recursiveTester ctx fuel g acc with
    | none =>
      rw [hfa, foldl_bind_none] at h'
      exact absurd h' (by simp)
    | some c =>
      rw [hfa] at h'
      have hrest : testGOids ctx fuel ids c = some acc' := h'
      rcases List.mem_cons.1 hp with hp | hp
      · subst hp
        have hc : p ∈ pKeys c := rt_visits ctx fuel p acc c hfa hbg
        obtain ⟨⟨r, hr, _⟩, _, _, _⟩ := testGOids_extends ctx fuel ids c acc' hrest
        exact pKeys_mono ⟨r, hr⟩ hc
      · exact ih c acc' hrest p hp hbg

/-- A successful call never duplicates a key of the p-value table. -/
theorem rt_nodup (ctx : Ctx) :
    ∀ (fuel : Nat) (GOid : String) (acc acc' : Results),
      recursiveTester ctx fuel GOid acc = some acc' →
      (pKeys acc).Nodup → (pKeys acc').Nodup := by
  intro fuel
  induction fuel with
  | zero =>
    intro GOid acc acc' h hnd
    by_cases hm : GOid ∈ pKeys acc
    · simp only [recursiveTester, if_pos hm, Option.some.injEq] at h
      exact h ▸ hnd
    · simp only [recursiveTester, if_neg hm] at h
      exact absurd h (by simp)
  | succ fuel ih =>
    intro GOid acc acc' h hnd
    simp only [recursiveTester] at h
    by_cases hm : GOid ∈ pKeys acc
    · rw [if_pos hm] at h
      injection h with h
      exact h ▸ hnd
    · rw [if_neg hm] at h
      have hrec : (pKeys (recordResult ctx GOid acc)).Nodup := by
        rw [pKeys_record]
        simp only [List.nodup_append, List.nodup_singleton, true_and]
        exact ⟨hnd, by simpa using hm⟩
      by_cases hlow : (bgCount ctx GOid : Int) < ctx.minGenes
      · rw [if_pos hlow] at h
        exact foldl_bind_pres _ (fun a b => (pKeys a).Nodup → (pKeys b).Nodup)
          (fun a hd => hd) (fun a b c h1 h2 hd => h2 (h1 hd))
          (fun g a b hab => ih g a b hab) _ _ _ h hnd
      · rw [if_neg hlow] at h
        by_cases hsig : ctx.threshold < pValOf ctx GOid
        · rw [if_pos hsig] at h
          exact foldl_bind_pres _ (fun a b => (pKeys a).Nodup → (pKeys b).Nodup)
            (fun a hd => hd) (fun a b c h1 h2 hd => h2 (h1 hd))
            (fun g a b hab => ih g a b hab) _ _ _ h hrec
        · rw [if_neg hsig] at h
          injection h with h
          exact h ▸ hrec

/-- With a rank function that strictly decreases from a term to each of
its direct parents, `recursiveTester` completes as soon as the recursion
bound exceeds the rank of the starting term. -/
theorem rt_isSome_of_rank (ctx : Ctx) (rank : String → Nat)
    (hr : ∀ t p, p ∈ (ctx.GOdict t).parents → rank p < rank t) :
    ∀ (fuel : Nat) (GOid : String) (acc : Results), rank GOid < fuel →
      (recursiveTester ctx fuel GOid acc).isSome = true := by
  intro fuel
  induction fuel with
  | zero =>
    intro g acc hg
    exact absurd hg (Nat.not_lt_zero _)
  | succ fuel ih =>
    intro g acc hg
    have hp : ∀ p ∈ (ctx.GOdict g).parents, rank p < fuel :=
      fun p hpp => lt_of_lt_of_le (hr g p hpp) (Nat.lt_succ_iff.mp hg)
    have hfold : ∀ (ids : List String), (∀ p ∈ ids, rank p < fuel) → ∀ acc0 : Results,
        ((ids.foldl (fun oacc parent => oacc.bind (fun a => recursiveTester ctx fuel parent a))
          (some acc0))).isSome = true := by
      intro ids
      induction ids with
      | nil =>
        intro _ acc0
        simp
      | cons q ids ih2 =>
        intro hq acc0
        rw [List.foldl_cons]
        have h1 : (recursiveTester ctx fuel q acc0).isSome = true :=
          ih q acc0 (hq q (List.mem_cons_self q ids))
        have hq' : ∀ p ∈ ids, rank p < fuel := fun p hpp => hq p (List.mem_cons_of_mem q hpp)
        cases hcall : recursiveTester ctx fuel q acc0 with
        | none =>
          rw [hcall] at h1
          exact absurd h1 (by simp)
        | some c =>
          have hstep : ((some acc0).bind (fun a => recursiveTester ctx fuel q a)) = some c := hcall
          rw [hstep]
          exact ih2 hq' c
    by_cases hm : g ∈ pKeys acc
    · simp [recursiveTester, hm]
    · by_cases hlow : (bgCount ctx g : Int) < ctx.minGenes
      · simp only [recursiveTester, if_neg hm, if_pos hlow]
        exact hfold _ hp acc
      · by_cases hsig : ctx.threshold < pValOf ctx g
        · simp only [recursiveTester, if_neg hm, if_neg hlow, if_pos hsig]
          exact hfold _ hp _
        · simp [recursiveTester, if_neg hm, if_neg hlow, if_neg hsig]

/-- The loop over a term list completes as soon as the recursion bound
exceeds the rank of every listed term. -/
theorem testGOids_isSome (ctx : Ctx) (rank : String → Nat)
    (hr : ∀ t p, p ∈ (ctx.GOdict t).parents → rank p < rank t) (fuel : Nat) :
    ∀ (ids : List String), (∀ g ∈ ids, rank g < fuel) → ∀ acc : Results,
      (testGOids ctx fuel ids acc).isSome = true := by
  intro ids
  induction ids with
  | nil =>
    intro _ acc
    simp [testGOids]
  | cons g ids ih =>
    intro hids acc
    simp only [testGOids, List.foldl_cons]
    have h1 : (recursiveTester ctx fuel g acc).isSome = true :=
      rt_isSome_of_rank ctx rank hr fuel g acc (hids g (List.mem_cons_self g ids))
    cases hcall : recursiveTester ctx fuel g acc with
    | none =>
      rw [hcall] at h1
      exact absurd h1 (by simp)
    | some c =>
      have hstep : ((some acc).bind (fun a => recursiveTester ctx fuel g a)) = some c := hcall
      rw [hstep]
      have := ih (fun p hpp => hids p (List.mem_cons_of_mem g hpp)) c
      simpa [testGOids] using this

/-- A one-term hierarchy: every identifier is a term with no parents and
no children. -/
def GOdictT : String → GOobj := fun _ => ⟨[], [], [], []⟩

/-- Background of three genes, each associated with the term `T`. -/
def gafDictT : List (String × List String) := [("g1", ["T"]), ("g2", ["T"]), ("g3", ["T"])]

/-- Subset of one gene, associated with the term `T`. -/
def gafSubsetT : List (String × List String) := [("g1", ["T"])]

/-- Context over the one-term hierarchy with the out-of-range threshold 2. -/
def ctxT : Ctx := ⟨GOdictT, gafDictT, gafSubsetT, 3, 1, 3, 2⟩

/-- Context over the one-term hierarchy with threshold 1, at which the
p-value 1 of `T` counts as significant. -/
def ctxS : Ctx := ⟨GOdictT, gafDictT, gafSubsetT, 3, 1, 3, 1⟩

/-- The table produced by testing `T` over the one-term hierarchy. -/
def tblS : Results := ⟨[("T", 1)], [("T", 1)], [("T", 3)], []⟩

/-- A diamond hierarchy: base terms `A` and `B` share the single
grandparent `GP`. -/
def dGOdict : String → GOobj := fun g =>
  if g = "GP" then ⟨[], ["A", "B"], [], ["A", "B"]⟩
  else if g = "A" then ⟨["GP"], [], ["GP"], []⟩
  else if g = "B" then ⟨["GP"], [], ["GP"], []⟩
  else ⟨[], [], [], []⟩

/-- Background for the diamond hierarchy. -/
def dGafDict : List (String × List String) := [("g1", ["A"]), ("g2", ["B"]), ("g3", ["GP"])]

/-- Subset for the diamond hierarchy: one gene at `A`, one at `B`. -/
def dGafSubset : List (String × List String) := [("g1", ["A"]), ("g2", ["B"])]

/-- Context for the diamond run: `minGenes = 1` and threshold 0, so no
test is significant and both base terms propagate into `GP`. -/
def dCtx : Ctx := ⟨dGOdict, dGafDict, dGafSubset, 3, 2, 1, 0⟩

/-- The table of the diamond run. -/
def tblD : Results := (enrichmentAnalysis dGOdict dGafDict dGafSubset 1 0 2).getD emptyResults

/-- C1: a term that already has an entry in the p-value table makes a
further `recursiveTester` invocation a no-op (the very table is returned,
nothing recorded, no parent visited), and any successful invocation never
overwrites or removes entries (the old `pValues` list stays a prefix) and
keeps the keys duplicate-free, so each term is written at most once per
run; the witness runs the diamond hierarchy, where the shared grandparent
ends up tested exactly once. -/
theorem recursiveTester_memoized_once (ctx : Ctx) (fuel : Nat) (GOid : String) (acc : Results) :
    (GOid ∈ pKeys acc → recursiveTester ctx fuel GOid acc = some acc) ∧
    ∀ acc', recursiveTester ctx fuel GOid acc = some acc' →
      (∃ r, acc'.pValues = acc.pValues ++ r) ∧
      ((pKeys acc).Nodup → (pKeys acc').Nodup) := by
  constructor
  · intro hm
    cases fuel <;> simp [recursiveTester, hm]
  · intro acc' h
    exact ⟨rt_tail_growth ctx fuel GOid acc acc' h, rt_nodup ctx fuel GOid acc acc' h⟩

/-- C1 witness: in the diamond run the grandparent is recorded exactly
once, and a further invocation on the already-recorded grandparent
returns the table unchanged. -/
theorem recursiveTester_memoized_once_witness :
    (pKeys tblD).count "GP" = 1 ∧ recursiveTester dCtx 4 "GP" tblD = some tblD :=
  ⟨by with_unfolding_all decide,
    (recursiveTester_memoized_once dCtx 4 "GP" tblD).1 (by with_unfolding_all decide)⟩

/-- C2: for a term that is not yet recorded and passes the `minGenes`
check, if its p-value exceeds the threshold the call is exactly the loop
of `recursiveTester` over all direct parents started from the table with
the term recorded (and afterwards every direct parent passing the
`minGenes` check is recorded); if its p-value is at most the threshold,
the resulting table is exactly the input table with this one record added,
so no parent is reached through this path. -/
theorem recursiveTester_stopping_policy (ctx : Ctx) (fuel : Nat) (GOid : String)
    (acc acc' : Results)
    (hmem : GOid ∉ pKeys acc)
    (hbg : ctx.minGenes ≤ (bgCount ctx GOid : Int))
    (hrun : recursiveTester ctx (fuel + 1) GOid acc = some acc') :
    (ctx.threshold < pValOf ctx GOid →
      recursiveTester ctx (fuel + 1) GOid acc
        = testGOids ctx fuel (ctx.GOdict GOid).parents (recordResult ctx GOid acc) ∧
      ∀ p ∈ (ctx.GOdict GOid).parents,
        ctx.minGenes ≤ (bgCount ctx p : Int) → p ∈ pKeys acc') ∧
    (pValOf ctx GOid ≤ ctx.threshold → acc' = recordResult ctx GOid acc) := by
  have hlow : ¬((bgCount ctx GOid : Int) < ctx.minGenes) := not_lt.mpr hbg
  constructor
  · intro hsig
    have heq : recursiveTester ctx (fuel + 1) GOid acc
        = testGOids ctx fuel (ctx.GOdict GOid).parents (recordResult ctx GOid acc) := by
      simp only [recursiveTester, if_neg hmem, if_neg hlow, if_pos hsig, testGOids]
    refine ⟨heq, ?_⟩
    have h' : testGOids ctx fuel (ctx.GOdict GOid).parents (recordResult ctx GOid acc)
        = some acc' := heq ▸ hrun
    exact testGOids_visits ctx fuel _ _ _ h'
  · intro hsig
    have hsig' : ¬(ctx.threshold < pValOf ctx GOid) := not_lt.mpr hsig
    simp only [recursiveTester, if_neg hmem, if_neg hlow, if_neg hsig',
      Option.some.injEq] at hrun
    exact hrun.symm

/-- C2 witness: over the one-term hierarchy with threshold 1, the p-value
1 of `T` counts as significant, and the resulting table is exactly the
input table with the one record for `T` added. -/
theorem recursiveTester_stopping_policy_witness :
    (ctxS.threshold < pValOf ctxS "T" →
      recursiveTester ctxS 1 "T" emptyResults
        = testGOids ctxS 0 (ctxS.GOdict "T").parents (recordResult ctxS "T" emptyResults) ∧
      ∀ p ∈ (ctxS.GOdict "T").parents,
        ctxS.minGenes ≤ (bgCount ctxS p : Int) → p ∈ pKeys tblS) ∧
    (pValOf ctxS "T" ≤ ctxS.threshold → tblS = recordResult ctxS "T" emptyResults) :=
  recursiveTester_stopping_policy ctxS 0 "T" emptyResults tblS
    (by with_unfolding_all decide) (by with_unfolding_all decide) (by with_unfolding_all decide)

/-- C3: for a term that is not yet recorded and fails the `minGenes`
check, the call is exactly the loop of `recursiveTester` over all direct
parents started from the unmodified table (no hypergeometric result is
recorded for the term), the term stays absent from all three
sub-dictionaries, and every direct parent passing the `minGenes` check is
recorded afterwards. -/
theorem recursiveTester_low_count_policy (ctx : Ctx) (fuel : Nat) (GOid : String)
    (acc acc' : Results)
    (hbg : (bgCount ctx GOid : Int) < ctx.minGenes)
    (hmem : GOid ∉ pKeys acc)
    (hrun : recursiveTester ctx (fuel + 1) GOid acc = some acc') :
    recursiveTester ctx (fuel + 1) GOid acc = testGOids ctx fuel (ctx.GOdict GOid).parents acc ∧
    GOid ∉ pKeys acc' ∧
    (GOid ∉ iKeys acc → GOid ∉ iKeys acc') ∧
    (GOid ∉ bKeys acc → GOid ∉ bKeys acc') ∧
    ∀ p ∈ (ctx.GOdict GOid).parents,
      ctx.minGenes ≤ (bgCount ctx p : Int) → p ∈ pKeys acc' := by
  have heq : recursiveTester ctx (fuel + 1) GOid acc
      = testGOids ctx fuel (ctx.GOdict GOid).parents acc := by
    simp only [recursiveTester, if_neg hmem, if_pos hbg, testGOids]
  have h' : testGOids ctx fuel (ctx.GOdict GOid).parents acc = some acc' := heq ▸ hrun
  obtain ⟨⟨r, hr, hrOK⟩, ⟨s, hs, hsOK⟩, ⟨t, ht, htOK⟩, _⟩ :=
    rt_extends ctx (fuel + 1) GOid acc acc' hrun
  have hnotlow : ¬(ctx.minGenes ≤ (bgCount ctx GOid : Int)) := not_le.mpr hbg
  refine ⟨heq, ?_, ?_, ?_, testGOids_visits ctx fuel _ _ _ h'⟩
  · intro hmem'
    simp only [pKeys, hr, List.map_append, List.mem_append] at hmem'
    rcases hmem' with hmem' | hmem'
    · exact hmem hmem'
    · obtain ⟨e, he, hek⟩ := List.mem_map.1 hmem'
      exact hnotlow (hek ▸ (hrOK e he).1)
  · intro hi hmem'
    simp only [iKeys, hs, List.map_append, List.mem_append] at hmem'
    rcases hmem' with hmem' | hmem'
    · exact hi hmem'
    · obtain ⟨e, he, hek⟩ := List.mem_map.1 hmem'
      exact hnotlow (hek ▸ (hsOK e he).1)
  · intro hb hmem'
    simp only [bKeys, ht, List.map_append, List.mem_append] at hmem'
    rcases hmem' with hmem' | hmem'
    · exact hb hmem'
    · obtain ⟨e, he, hek⟩ := List.mem_map.1 hmem'
      exact hnotlow (hek ▸ (htOK e he).1)

/-- A two-level hierarchy for the low-count run: `L` has the single
parent `P`; `P` has the recursive child `L`. -/
def lGOdict : String → GOobj := fun g =>
  if g = "P" then ⟨[], ["L"], [], ["L"]⟩ else ⟨["P"], [], ["P"], []⟩

/-- Background for the low-count run: one gene at `L`, two at `P`. -/
def lGafDict : List (String × List String) := [("g1", ["L"]), ("g2", ["P"]), ("g3", ["P"])]

/-- Subset for the low-count run: the gene at `L`. -/
def lGafSubset : List (String × List String) := [("g1", ["L"])]

/-- Context for the low-count run: `minGenes = 2`, so `L` (background
count 1) is skipped while `P` (background count 3) is testable. -/
def ctxL : Ctx := ⟨lGOdict, lGafDict, lGafSubset, 3, 1, 2, 1/20⟩

/-- The table of the low-count run: only the parent `P` is recorded. -/
def tblL : Results := ⟨[("P", 1)], [("P", 1)], [("P", 3)], []⟩

/-- C3 witness: testing the sparse term `L` records nothing for `L` in any
sub-dictionary, runs the loop over its parent `P`, and leaves `P`
recorded. -/
theorem recursiveTester_low_count_policy_witness :
    recursiveTester ctxL 2 "L" emptyResults
      = testGOids ctxL 1 (ctxL.GOdict "L").parents emptyResults ∧
    "L" ∉ pKeys tblL ∧
    ("L" ∉ iKeys emptyResults → "L" ∉ iKeys tblL) ∧
    ("L" ∉ bKeys emptyResults → "L" ∉ bKeys tblL) ∧
    ∀ p ∈ (ctxL.GOdict "L").parents,
      ctxL.minGenes ≤ (bgCount ctxL p : Int) → p ∈ pKeys tblL :=
  recursiveTester_low_count_policy ctxL 1 "L" emptyResults tblL
    (by with_unfolding_all decide) (by with_unfolding_all decide) (by with_unfolding_all decide)

/-- C4: a term is a base term of `enrichmentAnalysis` exactly when it is
directly associated with some subset gene and is not a recursive parent of
any term directly associated with a subset gene. -/
theorem baseGOids_spec (GOdict : String → GOobj) (gafSubset : List (String × List String))
    (g : String) :
    g ∈ baseGOids GOdict gafSubset ↔
      (∃ assoc ∈ gafSubset, g ∈ assoc.2) ∧
      ∀ t, (∃ assoc ∈ gafSubset, t ∈ assoc.2) → g ∉ (GOdict t).recursive_parents := by
  simp only [baseGOids, List.mem_filter, decide_eq_true_eq, List.mem_dedup, List.mem_flatten,
    List.mem_map]
  constructor
  · rintro ⟨⟨l, ⟨a, ha, hal⟩, hgl⟩, hnp⟩
    refine ⟨⟨a, ha, hal ▸ hgl⟩, ?_⟩
    intro t ⟨b, hb, htb⟩ hgp
    exact hnp ⟨(GOdict t).recursive_parents, ⟨t, ⟨b.2, ⟨b, hb, rfl⟩, htb⟩, rfl⟩, hgp⟩
  · rintro ⟨⟨a, ha, hga⟩, hall⟩
    refine ⟨⟨a.2, ⟨a, ha, rfl⟩, hga⟩, ?_⟩
    rintro ⟨l, ⟨t, ⟨m, ⟨b, hb, hbm⟩, htm⟩, hl⟩, hgl⟩
    exact hall t ⟨b, hb, hbm ▸ htm⟩ (hl ▸ hgl)

/-- C4 witness: in the diamond hierarchy, `A` is a base term, so it is
associated with a subset gene and is a recursive parent of no term that is
associated with a subset gene. -/
theorem baseGOids_spec_witness :
    (∃ assoc ∈ dGafSubset, "A" ∈ assoc.2) ∧
    ∀ t, (∃ assoc ∈ dGafSubset, t ∈ assoc.2) → "A" ∉ (dGOdict t).recursive_parents :=
  (baseGOids_spec dGOdict dGafSubset "A").mp (by with_unfolding_all decide)

/-- A one-entry result table used to exercise the corrector. -/
def tbl1 : Results := ⟨[("GO:1", 1/2)], [("GO:1", 1)], [("GO:1", 2)], []⟩

/-- C5 counterexample: called with the unknown method string `banana`,
`multipleTestingCorrection` raises no error at all; it silently produces
exactly the Benjamini-Hochberg FDR result and fills in the corrected
p-values. -/
theorem multipleTestingCorrection_unknown_method_cex :
    multipleTestingCorrection tbl1 "banana" (1/20)
      = multipleTestingCorrection tbl1 "fdr" (1/20) ∧
    (multipleTestingCorrection tbl1 "banana" (1/20)).corr = [("GO:1", 1/2)] := by
  constructor <;> with_unfolding_all decide

/-- C5 amended: for every method string other than `bonferroni` —
including unknown identifiers — the corrector behaves exactly as the
`fdr` method; the source has no error branch. -/
theorem multipleTestingCorrection_unknown_method (tbl : Results) (testType : String)
    (threshold : ℚ) (h : testType ≠ "bonferroni") :
    multipleTestingCorrection tbl testType threshold
      = multipleTestingCorrection tbl "fdr" threshold := by
  simp only [multipleTestingCorrection, correctedPValues, if_neg h,
    if_neg (by decide : ¬("fdr" = "bonferroni"))]

/-- C5 amended witness: the unknown method string `banana` is handled as
the FDR method. -/
theorem multipleTestingCorrection_unknown_method_witness :
    multipleTestingCorrection tbl1 "banana" (1/20)
      = multipleTestingCorrection tbl1 "fdr" (1/20) :=
  multipleTestingCorrection_unknown_method tbl1 "banana" (1/20) (by decide)

/-- A malformed cyclic hierarchy: every term is its own (direct) parent. -/
def cycGOobj : GOobj := ⟨["C"], [], ["C"], []⟩

/-- Context over the cyclic hierarchy with empty gaf dictionaries, so the
background count of every term is 0 and stays below `minGenes = 3`. -/
def cycCtx : Ctx := ⟨fun _ => cycGOobj, [], [], 0, 0, 3, 1/20⟩

/-- Termination of the traversal from a given start: some recursion bound
suffices for the call to complete. -/
def terminatesFrom (ctx : Ctx) (GOid : String) (acc : Results) : Prop :=
  ∃ fuel, (recursiveTester ctx fuel GOid acc).isSome = true

/-- On the cyclic low-count input, every recursion bound is exhausted. -/
theorem cyc_run_none : ∀ fuel, recursiveTester cycCtx fuel "C" emptyResults = none := by
  intro fuel
  induction fuel with
  | zero =>
    simp [recursiveTester, pKeys, emptyResults]
  | succ n ih =>
    have hm : "C" ∉ pKeys emptyResults := by simp [pKeys, emptyResults]
    have hlow : (bgCount cycCtx "C" : Int) < cycCtx.minGenes := by decide
    simp only [recursiveTester, if_neg hm, if_pos hlow]
    have hpar : (cycCtx.GOdict "C").parents = ["C"] := rfl
    rw [hpar, List.foldl_cons]
    have hstep : ((some emptyResults).bind (fun a => recursiveTester cycCtx n "C" a)) = none := by
      simp [ih]
    rw [hstep, List.foldl_nil]

/-- C6 counterexample: on the malformed cyclic input where `C` is its own
parent and its background count stays below `minGenes`, the recursion of
`recursiveTester` never completes — no recursion bound suffices, i.e. the
source function recurses without bound. -/
theorem recursiveTester_cycle_no_termination : ¬ terminatesFrom cycCtx "C" emptyResults := by
  rintro ⟨fuel, h⟩
  rw [cyc_run_none fuel] at h
  exact absurd h (by simp)

/-- C6 amended: the traversal terminates on every input whose parent
relation admits a rank strictly decreasing from each term to its direct
parents — in particular on every finite DAG, where the recursion depth is
bounded by the hierarchy depth; the cyclic counterexample shows the bound
cannot be dropped. -/
theorem recursiveTester_terminates_acyclic (ctx : Ctx) (rank : String → Nat)
    (hr : ∀ t p, p ∈ (ctx.GOdict t).parents → rank p < rank t)
    (GOid : String) (acc : Results) (fuel : Nat) (hf : rank GOid < fuel) :
    (recursiveTester ctx fuel GOid acc).isSome = true :=
  rt_isSome_of_rank ctx rank hr fuel GOid acc hf

/-- C6 amended witness: over the one-term hierarchy (rank 0 everywhere)
one unit of recursion bound makes the call complete. -/
theorem recursiveTester_terminates_acyclic_witness :
    (recursiveTester ctxT 1 "T" emptyResults).isSome = true :=
  recursiveTester_terminates_acyclic ctxT (fun _ => 0)
    (by
      intro t p hp
      exact absurd hp (by simp [ctxT, GOdictT]))
    "T" emptyResults 1 (by decide)

/-- C7 counterexample: with `threshold = 2` (outside the interval `(0,1]`)
and likewise with `minGenes = -1` (negative), `enrichmentAnalysis` does
not fail at all: it runs the analysis to completion and writes the test
result for `T` into the table. -/
theorem enrichmentAnalysis_no_fail_fast_cex :
    enrichmentAnalysis GOdictT gafDictT gafSubsetT 3 2 1 = some tblS ∧
    enrichmentAnalysis GOdictT gafDictT gafSubsetT (-1) (1/20) 1 = some tblS := by
  constructor <;> with_unfolding_all decide

/-- C7 amended: the source validates neither `threshold` nor `minGenes`;
for every configuration — including a threshold outside `(0,1]` and a
negative `minGenes` — the analysis proceeds normally and returns a result
table (whenever the hierarchy is well founded and the recursion bound
covers the base terms), instead of failing fast. -/
theorem enrichmentAnalysis_no_config_validation (GOdict : String → GOobj)
    (gafDict gafSubset : List (String × List String)) (minGenes : Int) (threshold : ℚ)
    (rank : String → Nat) (fuel : Nat)
    (hr : ∀ t p, p ∈ (GOdict t).parents → rank p < rank t)
    (hb : ∀ g ∈ baseGOids GOdict gafSubset, rank g < fuel) :
    (enrichmentAnalysis GOdict gafDict gafSubset minGenes threshold fuel).isSome = true := by
  simp only [enrichmentAnalysis]
  exact testGOids_isSome
    { GOdict := GOdict, gafDict := gafDict, gafSubset := gafSubset,
      backgroundTotal := gafDict.length, subsetTotal := gafSubset.length,
      minGenes := minGenes, threshold := threshold }
    rank hr fuel (baseGOids GOdict gafSubset) hb emptyResults

/-- C7 amended witness: with the invalid threshold 2 the analysis still
completes and produces a table. -/
theorem enrichmentAnalysis_no_config_validation_witness :
    (enrichmentAnalysis GOdictT gafDictT gafSubsetT 3 2 1).isSome = true :=
  enrichmentAnalysis_no_config_validation GOdictT gafDictT gafSubsetT 3 2 (fun _ => 0) 1
    (by
      intro t p hp
      exact absurd hp (by simp [GOdictT]))
    (by
      intro g hg
      exact Nat.zero_lt_one)

/-- C8: whenever `subsetGO = 0`, `enrichmentOneSided` evaluates the
survival function at `k - 1 = -1`, where the cumulative distribution is
the empty sum, and therefore returns exactly 1, for any valid remaining
parameters. -/
theorem enrichmentOneSided_subsetGO_zero (backgroundTotal backgroundGO subsetTotal : Nat)
    (h1 : backgroundGO ≤ backgroundTotal) (h2 : subsetTotal ≤ backgroundTotal) :
    enrichmentOneSided 0 backgroundTotal backgroundGO subsetTotal
      = hypergeomSF (-1) backgroundTotal backgroundGO subsetTotal ∧
    enrichmentOneSided 0 backgroundTotal backgroundGO subsetTotal = 1 := by
  constructor
  · norm_num [enrichmentOneSided]
  · norm_num [enrichmentOneSided, hypergeomSF, hypergeomCDF]

/-- C8 witness: the zero-success edge case at concrete valid parameters. -/
theorem enrichmentOneSided_subsetGO_zero_witness :
    enrichmentOneSided 0 10 4 3 = hypergeomSF (-1) 10 4 3 ∧
    enrichmentOneSided 0 10 4 3 = 1 :=
  enrichmentOneSided_subsetGO_zero 10 4 3 (by decide) (by decide)

/-- Both correction methods return as many corrected values as raw ones. -/
theorem correctedPValues_length (testType : String) (ps : List ℚ) :
    (correctedPValues testType ps).length = ps.length := by
  by_cases h : testType = "bonferroni"
  · simp [correctedPValues, h, bonferroniCorrect]
  · simp [correctedPValues, h, fdrBHCorrect]

/-- The key sequence of the appended `corr` sub-dictionary is exactly the
term sequence of the `pValues` sub-dictionary. -/
theorem mtc_corr_keys (tbl : Results) (testType : String) (threshold : ℚ) :
    (multipleTestingCorrection tbl testType threshold).corr.map Prod.fst
      = tbl.pValues.map Prod.fst := by
  simp only [multipleTestingCorrection]
  exact List.map_fst_zip _ _ (by simp [correctedPValues_length])

/-- C9: the corrector hands the correction procedure the term sequence and
the raw p-value sequence of the very same `pValues` entries in the same
order, and the resulting `corr` mapping zips them back position by
position: its key sequence is the term sequence, and its value sequence is
the corrected image of the raw p-value sequence, so every term is paired
with the corrected value derived from its own raw p-value. -/
theorem multipleTestingCorrection_alignment (tbl : Results) (testType : String)
    (threshold : ℚ) :
    (multipleTestingCorrection tbl testType threshold).corr.map Prod.fst
      = tbl.pValues.map Prod.fst ∧
    (multipleTestingCorrection tbl testType threshold).corr.map Prod.snd
      = correctedPValues testType (tbl.pValues.map Prod.snd) := by
  refine ⟨mtc_corr_keys tbl testType threshold, ?_⟩
  simp only [multipleTestingCorrection]
  exact List.map_snd_zip _ _ (by simp [correctedPValues_length])

/-- C10: the corrector changes nothing but the `corr` sub-dictionary: the
three pre-existing sub-dictionaries are returned unchanged, and the key
sequence of the added `corr` sub-dictionary equals the key sequence of
`pValues`. -/
theorem multipleTestingCorrection_frame (tbl : Results) (testType : String) (threshold : ℚ) :
    (multipleTestingCorrection tbl testType threshold).pValues = tbl.pValues ∧
    (multipleTestingCorrection tbl testType threshold).interestCount = tbl.interestCount ∧
    (multipleTestingCorrection tbl testType threshold).backgroundCount = tbl.backgroundCount ∧
    (multipleTestingCorrection tbl testType threshold).corr.map Prod.fst
      = tbl.pValues.map Prod.fst :=
  ⟨rfl, rfl, rfl, mtc_corr_keys tbl testType threshold⟩
